import Mathlib

/-!
Verification development for the LinkedIn profile extractor
(`linked_scrapper_v3.py`).  The heuristic structured-record extractor
(class `LinkedInProfileExtractor`) is shallowly embedded here: text
fragments are `List Char` (so `len` agrees with Python's code-point
count), the parsed HTML document is a tree of `Node`s, optional fields
are `Option`, and the fixed regular expressions used by the code are
hand-compiled into executable backtracking matchers whose exploration
order mirrors Python's `re` engine (leftmost start, alternatives in
order, greedy quantifiers backtrack from longest, lazy from shortest).
ASCII is assumed for case folding and the `\s`/`\w` classes, which is
the range the extractor's keyword tables exercise.
-/

namespace Scrapper

/-- Text fragments are lists of characters (Python `str`). -/
abbrev Frag := List Char

/-- ASCII letters, the `[A-Za-z]` class of the source regexes. -/
def isAlphaCh (c : Char) : Bool :=
  ('A' ≤ c && c ≤ 'Z') || ('a' ≤ c && c ≤ 'z')

/-- ASCII digits, the `\d` class. -/
def isDigitCh (c : Char) : Bool :=
  '0' ≤ c && c ≤ '9'

/-- Python's `\s` class / `str.strip` whitespace (ASCII part). -/
def isPySpace (c : Char) : Bool :=
  c = ' ' || c = '\t' || c = '\n' || c = '\r' ||
  c = Char.ofNat 11 || c = Char.ofNat 12

/-- The `\w` word-character class (ASCII part), used by `\b`. -/
def isWordCh (c : Char) : Bool :=
  isAlphaCh c || isDigitCh c || c = '_'

/-- ASCII lower-casing of one character (Python `str.lower`). -/
def lowerCh (c : Char) : Char := Char.toLower c

/-- Lower-case a fragment (Python `str.lower`). -/
def lowerF (t : Frag) : Frag := t.map lowerCh

/-- Python `sub in s`: substring containment (`sub` is a prefix of
some suffix of `s`; the empty string is contained in everything). -/
def inStr (sub : Frag) : Frag → Bool
  | [] => List.isPrefixOf sub []
  | c :: rest => List.isPrefixOf sub (c :: rest) || inStr sub rest

/-- Python `str.strip()`: drop leading and trailing whitespace. -/
def pyStrip (t : Frag) : Frag :=
  ((t.dropWhile isPySpace).reverse.dropWhile isPySpace).reverse

/-- Replace every whitespace run by a single space
(the effect of `re.sub(r'\s+', ' ', ...)`). -/
def collapseWs : List Char → List Char
  | [] => []
  | [c] => [if isPySpace c then ' ' else c]
  | a :: b :: rest =>
    if isPySpace a && isPySpace b then collapseWs (b :: rest)
    else (if isPySpace a then ' ' else a) :: collapseWs (b :: rest)

/-- `_normalize_text`: strip, collapse whitespace runs to single spaces,
and return `none` for an empty result. -/
def normalize_text (t : Frag) : Option Frag :=
  let cleaned := collapseWs (pyStrip t)
  if cleaned.isEmpty then none else some cleaned

/-- Short-circuit choice on `Option`, the backtracking "or". -/
def orO (a b : Option α) : Option α :=
  match a with
  | some v => some v
  | none => b

/-!
CPS combinators hand-compiling the source's regexes.  A continuation
receives the text matched by the quantified piece (`acc`-accumulated)
and the remaining input; `orO` sequences backtracking alternatives in
the order Python's engine explores them.
-/

/-- Greedy `p*` with capture: try the longest run first, hand shorter
splits to the continuation only if everything downstream fails. -/
def starGreedyCap (p : Char → Bool) (acc : List Char)
    (k : List Char → List Char → Option α) : List Char → Option α
  | [] => k acc []
  | c :: cs =>
    if p c then orO (starGreedyCap p (acc ++ [c]) k cs) (k acc (c :: cs))
    else k acc (c :: cs)

/-- Greedy `p+` with capture (at least one character). -/
def plusGreedyCap (p : Char → Bool)
    (k : List Char → List Char → Option α) : List Char → Option α
  | [] => none
  | c :: cs => if p c then starGreedyCap p [c] k cs else none

/-- Lazy `.+?`-style `p+?` with capture: shortest first. -/
def lazyPlusCap (p : Char → Bool) (acc : List Char)
    (k : List Char → List Char → Option α) : List Char → Option α
  | [] => none
  | c :: cs =>
    if p c then orO (k (acc ++ [c]) cs) (lazyPlusCap p (acc ++ [c]) k cs)
    else none

/-- Exactly four digits, `\d{4}`, captured. -/
def digits4 (k : List Char → List Char → Option α) : List Char → Option α
  | a :: b :: c :: d :: rest =>
    if isDigitCh a && isDigitCh b && isDigitCh c && isDigitCh d then
      k [a, b, c, d] rest
    else none
  | _ => none

/-- Case-insensitive literal (`w` given lower-case); captures the
original characters. -/
def ciLitCap (w : List Char) (acc : List Char)
    (k : List Char → List Char → Option α) : List Char → Option α :=
  match w with
  | [] => fun cs => k acc cs
  | wc :: w' => fun cs =>
    match cs with
    | [] => none
    | c :: cs' => if lowerCh c = wc then ciLitCap w' (acc ++ [c]) k cs' else none

/-- Generic `re.search` driver: try the pattern at every start
position, leftmost first (including the empty suffix). -/
def searchFrom (f : List Char → Option β) : List Char → Option β
  | [] => f []
  | c :: cs => orO (f (c :: cs)) (searchFrom f cs)

/-!
The date-range regex of `_extract_date_range`:
`([A-Za-z]+\s+\d{4}|\d{4})\s*[–-]\s*([A-Za-z]+\s+\d{4}|\d{4}|Present)`
compiled with `re.IGNORECASE` (which only affects the literal
`Present`).
-/

/-- `[A-Za-z]+\s+\d{4}` with capture of the whole alternative. -/
def monthYearCap (k : List Char → List Char → Option α) : List Char → Option α :=
  fun cs =>
    plusGreedyCap isAlphaCh (fun m r =>
      plusGreedyCap isPySpace (fun sp r2 =>
        digits4 (fun y r3 => k (m ++ sp ++ y) r3) r2) r) cs

/-- First group of the date regex: `[A-Za-z]+\s+\d{4}|\d{4}`. -/
def group1Cap (k : List Char → List Char → Option α) (cs : List Char) : Option α :=
  orO (monthYearCap k cs) (digits4 k cs)

/-- The word matched case-insensitively for an open-ended range end. -/
def presentW : List Char := ("present").data

/-- Second group: `[A-Za-z]+\s+\d{4}|\d{4}|Present` (case-insensitive). -/
def group2Cap (k : List Char → List Char → Option α) (cs : List Char) : Option α :=
  orO (monthYearCap k cs) (orO (digits4 k cs) (ciLitCap presentW [] k cs))

/-- The separator `\s*[–-]\s*` (a hyphen or an en-dash, optionally
surrounded by whitespace). -/
def sepCap (k : List Char → Option α) (cs : List Char) : Option α :=
  starGreedyCap isPySpace []
    (fun _ r =>
      match r with
      | c :: r' =>
        if c = '-' || c = '–' then
          starGreedyCap isPySpace [] (fun _ r2 => k r2) r'
        else none
      | [] => none) cs

/-- The whole date regex tried at one start position; returns the two
captured groups. -/
def dateAt (cs : List Char) : Option (Frag × Frag) :=
  group1Cap (fun g1 r =>
    sepCap (fun r2 =>
      group2Cap (fun g2 _ => some (g1, g2)) r2) r) cs

/-- `re.search` of the date regex. -/
def dateSearch (cs : List Char) : Option (Frag × Frag) :=
  searchFrom dateAt cs

/-!
The duration regex of `_extract_date_range`: `·\s*(.+?)(?:\s*·|$)`
(no flags; `.` excludes the newline, `$` also matches just before one
trailing newline).
-/

/-- The `.` class of the duration regex: any character but newline. -/
def dotCh (c : Char) : Bool := c ≠ '\n'

/-- The tail alternative `(?:\s*·|$)`. -/
def endAltU (cs : List Char) : Option Unit :=
  orO
    (starGreedyCap isPySpace []
      (fun _ r =>
        match r with
        | c :: _ => if c = '·' then some () else none
        | [] => none) cs)
    (if cs = [] || cs = ['\n'] then some () else none)

/-- `\s*(.+?)(?:\s*·|$)` after the opening middle dot; returns the
lazy group. -/
def durTail (cs : List Char) : Option Frag :=
  starGreedyCap isPySpace []
    (fun _ r =>
      lazyPlusCap dotCh []
        (fun cap r2 =>
          match endAltU r2 with
          | some _ => some cap
          | none => none) r) cs

/-- The duration regex tried at one start position. -/
def durAt : List Char → Option Frag
  | c :: cs => if c = '·' then durTail cs else none
  | [] => none

/-- `re.search` of the duration regex. -/
def durationSearch (cs : List Char) : Option Frag :=
  searchFrom durAt cs

/-- `_extract_date_range`: run the date and duration regexes
independently; strip the captured groups. -/
def extract_date_range (text : Frag) : Option Frag × Option Frag × Option Frag :=
  let dm := dateSearch text
  let du := durationSearch text
  (dm.map (fun g => pyStrip g.1), dm.map (fun g => pyStrip g.2), du.map pyStrip)

/-!
The education year regex: `re.findall(r'\b(19|20)\d{2}\b', text)`.
`findall` scans left to right for non-overlapping matches and, because
the pattern has one capturing group, collects the text of that group
(`"19"` or `"20"`), not the whole 4-digit match.
-/

/-- Does the year pattern match here?  `prevWord` says whether the
previous character is a word character (for the leading `\b`). -/
def yearHere (prevWord : Bool) (a b c d : Char) (rest : List Char) : Bool :=
  !prevWord && ((a = '1' && b = '9') || (a = '2' && b = '0')) &&
  isDigitCh c && isDigitCh d &&
  (match rest with
   | [] => true
   | e :: _ => !isWordCh e)

/-- Left-to-right non-overlapping scan collecting the group captures. -/
def yearFindAux (prevWord : Bool) : List Char → List Frag
  | a :: b :: c :: d :: rest =>
    if yearHere prevWord a b c d rest then [a, b] :: yearFindAux true rest
    else yearFindAux (isWordCh a) (b :: c :: d :: rest)
  | a :: rest => yearFindAux (isWordCh a) rest
  | [] => []

/-- `re.findall(r'\b(19|20)\d{2}\b', text)`. -/
def yearFindall (text : Frag) : List Frag :=
  yearFindAux false text

/-!
The certification date regexes:
`issued\s+([A-Za-z]+\s+\d{4})` and `expires\s+([A-Za-z]+\s+\d{4})`,
both searched with `re.IGNORECASE`.
-/

/-- `<word>\s+([A-Za-z]+\s+\d{4})` tried at one position, returning
the group. -/
def litMonthYearAt (w : List Char) (cs : List Char) : Option Frag :=
  ciLitCap w []
    (fun _ r =>
      plusGreedyCap isPySpace (fun _ r2 =>
        monthYearCap (fun g _ => some g) r2) r) cs

/-- `re.search` for `issued ...` / `expires ...`; `w` is the
lower-cased literal. -/
def litMonthYearSearch (w : List Char) (cs : List Char) : Option Frag :=
  searchFrom (litMonthYearAt w) cs

/-- Is there a run of four consecutive digits (`re.search(r'\d{4}', .)`)? -/
def has4Digits : List Char → Bool
  | a :: b :: c :: d :: rest =>
    (isDigitCh a && isDigitCh b && isDigitCh c && isDigitCh d) ||
    has4Digits (b :: c :: d :: rest)
  | _ => false

/-- The lower-cased month abbreviations of the date-hint regexes. -/
def monthsW : List Frag :=
  [("jan").data, ("feb").data, ("mar").data, ("apr").data, ("may").data,
   ("jun").data, ("jul").data, ("aug").data, ("sep").data, ("oct").data,
   ("nov").data, ("dec").data]

/-- `re.search(r'\d{4}|Jan|...|Dec', text, re.IGNORECASE)` as a Bool;
with `withPresent` the alternative `|Present` is included. -/
def dateHint (withPresent : Bool) (t : Frag) : Bool :=
  has4Digits t || monthsW.any (fun m => inStr m (lowerF t)) ||
  (withPresent && inStr presentW (lowerF t))

/-!
Document model: the parsed HTML tree that BeautifulSoup hands to the
extractor.  An element node carries its (lower-cased) tag name, the
names of the attributes it possesses (values are irrelevant to this
program: the only attribute test it performs is a presence test) and
its children; a text node carries a string.  The document is the
forest of top-level nodes (the soup object itself is not an element,
so a top-level element has no ancestors of tag kind).
-/

/-- One node of the parsed document tree. -/
inductive Node where
  | elem (tag : Frag) (attrNames : List Frag) (children : List Node)
  | text (s : Frag)

mutual

/-- BeautifulSoup `get_text()`: concatenation of every string in the
subtree, in document order, with no separator. -/
def getTextN : Node → Frag
  | .text s => s
  | .elem _ _ cs => getTextL cs

def getTextL : List Node → Frag
  | [] => []
  | n :: ns => getTextN n ++ getTextL ns

end

mutual

/-- All nodes of a forest in document (pre-order) order. -/
def preorderL : List Node → List Node
  | [] => []
  | n :: ns => preorderN n ++ preorderL ns

def preorderN (n : Node) : List Node :=
  n :: (match n with
        | .elem _ _ cs => preorderL cs
        | .text _ => [])

end

mutual

/-- Pre-order nodes of a forest, each paired with its ancestor chain
(nearest ancestor first); `anc` is the chain above the forest. -/
def preorderAncL (anc : List Node) : List Node → List (Node × List Node)
  | [] => []
  | n :: ns => preorderAncN anc n ++ preorderAncL anc ns

def preorderAncN (anc : List Node) (n : Node) : List (Node × List Node) :=
  (n, anc) :: (match n with
               | .elem _ _ cs => preorderAncL (n :: anc) cs
               | .text _ => [])

end

/-- Is the node an element with one of the given tag names? -/
def isTagOf (tags : List Frag) : Node → Bool
  | .elem tag _ _ => tags.any (fun t => t == tag)
  | .text _ => false

/-- Does the element possess an attribute of this name?  This is how
BeautifulSoup matches an attribute filter whose value is `True`. -/
def hasAttr (a : Frag) : Node → Bool
  | .elem _ attrs _ => attrs.any (fun x => x == a)
  | .text _ => false

/-- Descendants of a node (the node itself excluded), pre-order: the
search space of `tag.find_all(...)`. -/
def descendantsOf : Node → List Node
  | .elem _ _ cs => preorderL cs
  | .text _ => []

/-- `tag.find_all(tags)`: matching descendant elements in document
order. -/
def findAllIn (tags : List Frag) (n : Node) : List Node :=
  (descendantsOf n).filter (isTagOf tags)

/-- `soup.find_all(tags)`: matching elements of the whole document. -/
def findAllDoc (tags : List Frag) (doc : List Node) : List Node :=
  (preorderL doc).filter (isTagOf tags)

/-- The tag names scanned by `_find_section_by_header`. -/
def headerScanTags : List Frag :=
  [("h2").data, ("h3").data, ("h4").data, ("span").data, ("div").data]

/-- The "container" tags of `find_parent(['section', 'div'])`. -/
def sectionParentTags : List Frag :=
  [("section").data, ("div").data]

/-- Does a scanned element's normalized text equal a keyword or start
with it (both sides lower-cased)? -/
def headerMatch (keywords : List Frag) (n : Node) : Bool :=
  isTagOf headerScanTags n &&
  (match normalize_text (getTextN n) with
   | none => false
   | some t => keywords.any (fun kw =>
       lowerF t == lowerF kw || List.isPrefixOf (lowerF kw) (lowerF t)))

/-- The attribute name the stray keyword argument turns into. -/
def recursiveW : Frag := ("recursive").data

/-- `_find_section_by_header`: scan heading-like elements in document
order; on a keyword match walk the ancestors with
`find_parent(['section', 'div'], recursive=True)`.  BeautifulSoup's
`find_parent` has no `recursive` parameter: the unknown keyword
becomes an attribute filter, and a `True` value means the ancestor
must possess a literal `recursive` attribute.  So the walk only
accepts a `section`/`div` ancestor carrying that attribute; a match
without one is skipped, and `none` is returned when nothing is found
(which on ordinary HTML is always). -/
def find_section_by_header (keywords : List Frag) (doc : List Node) : Option Node :=
  (preorderAncL [] doc).findSome? (fun pa =>
    if headerMatch keywords pa.1 then
      pa.2.find? (fun n => isTagOf sectionParentTags n && hasAttr recursiveW n)
    else none)

/-- The locator the specification describes (and the code's evident
intent): the same scan, but the ancestor walk is a plain
`find_parent(['section', 'div'])` without the stray keyword, so the
nearest `section`/`div` ancestor is returned. -/
def find_section_intended (keywords : List Frag) (doc : List Node) : Option Node :=
  (preorderAncL [] doc).findSome? (fun pa =>
    if headerMatch keywords pa.1 then pa.2.find? (isTagOf sectionParentTags)
    else none)

/-- Direct `div` children of a node (the `direct_children`
comprehension; text nodes and other tags are not counted). -/
def divChildren : Node → List Node
  | .elem _ _ cs => cs.filter (isTagOf [("div").data])
  | .text _ => []

/-- The loop over candidate containers: children of the first one with
at least two direct `div` children. -/
def firstFatLoop : List Node → Option (List Node)
  | [] => none
  | c :: rest =>
    let dc := divChildren c
    if 2 ≤ dc.length then some dc else firstFatLoop rest

/-- `_get_list_items_from_section`: all `li` descendants if any,
otherwise the `div` children of the first `ul`/`ol`/`div` descendant
with at least two of them, otherwise nothing. -/
def get_list_items_from_section (sec : Node) : List Node :=
  let lis := findAllIn [("li").data] sec
  if lis.isEmpty then
    match firstFatLoop (findAllIn [("ul").data, ("ol").data, ("div").data] sec) with
    | some dc => dc
    | none => []
  else lis

/-!
Record types and field-assignment rule chains.  Each `parse_*` follows
its Python counterpart step for step: `find?`/`eraseP` model the
`for ... if ...: remove; break` idiom (the removed element is the
first one satisfying the value-determined condition).
-/

/-- The tags whose text becomes a sub-block's fragment list. -/
def parseScanTags : List Frag :=
  [("span").data, ("div").data, ("p").data, ("h3").data, ("h4").data]

/-- Normalized texts of a sub-block's `span/div/p/h3/h4` descendants. -/
def textElements (item : Node) : List Frag :=
  (findAllIn parseScanTags item).filterMap (fun e => normalize_text (getTextN e))

structure Experience where
  job_title : Option Frag
  company_name : Option Frag
  employment_type : Option Frag
  start_date : Option Frag
  end_date : Option Frag
  duration : Option Frag
  location : Option Frag
  description : List Frag
deriving DecidableEq

def emptyExperience : Experience :=
  ⟨none, none, none, none, none, none, none, []⟩

def midDotW : Frag := ("·").data

/-- The title rule: length above 3 and containing neither
`"experience"` nor a middle dot in its lower-cased form. -/
def titlePred (t : Frag) : Bool :=
  decide (3 < t.length) && !(inStr (("experience").data) (lowerF t)) &&
  !(inStr midDotW (lowerF t))

/-- The title loop: pick the first fragment satisfying `titlePred` and
continue with the elements after it; leave the list untouched when
nothing matches. -/
def titleStep : List Frag → Option Frag × List Frag
  | [] => (none, [])
  | t :: ts =>
    if titlePred t then (some t, ts)
    else
      match titleStep ts with
      | (some x, rest) => (some x, rest)
      | (none, _) => (none, t :: ts)

def empTypeW : List Frag :=
  [("Full-time").data, ("Part-time").data, ("Contract").data,
   ("Freelance").data, ("Internship").data, ("Self-employed").data]

def empPred (t : Frag) : Bool := empTypeW.any (fun k => inStr k t)

/-- A fragment claimed by the experience date rule: it trips the date
hint and the date-range regex actually finds a start. -/
def expDatePred (t : Frag) : Bool :=
  dateHint true t && (dateSearch t).isSome

/-- The experience location rule (comma or remote/hybrid, and short). -/
def locPred (t : Frag) : Bool :=
  (inStr ((",").data) t || inStr (("remote").data) (lowerF t) ||
   inStr (("hybrid").data) (lowerF t)) && decide (t.length < 100)

/-- `_parse_experience_item` on the fragment list; `descLis` is
`some texts` when the sub-block has `li` descendants (their normalized
texts), `none` otherwise. -/
def parse_experience_frags (ts0 : List Frag) (descLis : Option (List Frag)) : Experience :=
  if ts0.isEmpty then emptyExperience
  else
    let (title, ts1) := titleStep ts0
    let (company, ts2) :=
      match ts1 with
      | [] => (none, ([] : List Frag))
      | c :: r => (some c, r)
    let emp := ts2.find? empPred
    let ts3 := ts2.eraseP empPred
    let dfound := ts3.find? expDatePred
    let ts4 := ts3.eraseP expDatePred
    let (sd, ed, du) :=
      match dfound with
      | some t => extract_date_range t
      | none => (none, none, none)
    let lfound := ts4.find? locPred
    let ts5 := ts4.eraseP locPred
    let desc :=
      match descLis with
      | some ds => ds
      | none => ts5.filter (fun t => 50 < t.length)
    { job_title := title, company_name := company, employment_type := emp,
      start_date := sd, end_date := ed, duration := du, location := lfound,
      description := desc }

def parse_experience_item (item : Node) : Experience :=
  let lis := findAllIn [("li").data] item
  let descLis :=
    if lis.isEmpty then none
    else some (lis.filterMap (fun li => normalize_text (getTextN li)))
  parse_experience_frags (textElements item) descLis

structure Education where
  institution_name : Option Frag
  degree : Option Frag
  field_of_study : Option Frag
  start_year : Option Frag
  end_year : Option Frag
  grade : Option Frag
  activities : Option Frag
deriving DecidableEq

def emptyEducation : Education := ⟨none, none, none, none, none, none, none⟩

def degreeW : List Frag :=
  [("Bachelor").data, ("Master").data, ("PhD").data, ("Associate").data,
   ("Doctorate").data, ("Diploma").data, ("Certificate").data]

def degPred (t : Frag) : Bool := degreeW.any (fun k => inStr k t)

/-- The education year rule fires on a fragment whose `findall` result
has exactly one or exactly two (group) matches. -/
def yearCountPred (t : Frag) : Bool :=
  (yearFindall t).length = 2 || (yearFindall t).length = 1

def gradePred (t : Frag) : Bool :=
  [("gpa").data, ("grade").data, ("cgpa").data, ("score").data].any
    (fun k => inStr k (lowerF t))

def actPred (t : Frag) : Bool :=
  inStr (("activities").data) (lowerF t) || decide (30 < t.length)

/-- `_parse_education_item` on the (already filtered) fragment list. -/
def parse_education_frags (ts0 : List Frag) : Education :=
  match ts0 with
  | [] => emptyEducation
  | inst :: ts1 =>
    let dfound := ts1.find? degPred
    let ts2 := ts1.eraseP degPred
    let (deg, fos) :=
      match dfound with
      | some t =>
        (match t.splitOn ',' with
         | [] => (none, none)
         | p0 :: rest =>
           (some (pyStrip p0),
            match rest with
            | [] => none
            | p1 :: _ => some (pyStrip p1)))
      | none => (none, none)
    let yfound := ts2.find? yearCountPred
    let ts3 := ts2.eraseP yearCountPred
    let (sy, ey) :=
      match yfound with
      | some t =>
        (match yearFindall t with
         | [y1, y2] => (some y1, some y2)
         | [y1] => (none, some y1)
         | _ => (none, none))
      | none => (none, none)
    let gfound := ts3.find? gradePred
    let ts4 := ts3.eraseP gradePred
    let afound := ts4.find? actPred
    { institution_name := some inst, degree := deg, field_of_study := fos,
      start_year := sy, end_year := ey, grade := gfound, activities := afound }

def parse_education_item (item : Node) : Education :=
  let ts := (textElements item).filter (fun t => !(lowerF t == ("education").data))
  parse_education_frags ts

structure Certification where
  name : Option Frag
  issuing_organization : Option Frag
  issue_date : Option Frag
  expiration_date : Option Frag
deriving DecidableEq

def emptyCertification : Certification := ⟨none, none, none, none⟩

def issuedW : Frag := ("issued").data
def expiresW : Frag := ("expires").data

def issuedExpiresHint (t : Frag) : Bool :=
  inStr issuedW (lowerF t) || inStr expiresW (lowerF t)

/-- The certification date loop runs over every remaining fragment
without breaking, overwriting on each hit. -/
def certDatesLoop : Option Frag × Option Frag → List Frag → Option Frag × Option Frag
  | acc, [] => acc
  | (iss, ex), t :: rest =>
    if issuedExpiresHint t then
      let iss' := match litMonthYearSearch issuedW t with
                  | some g => some g
                  | none => iss
      let ex' := match litMonthYearSearch expiresW t with
                 | some g => some g
                 | none => ex
      certDatesLoop (iss', ex') rest
    else certDatesLoop (iss, ex) rest

def parse_certification_frags (ts0 : List Frag) : Certification :=
  match ts0 with
  | [] => emptyCertification
  | nm :: ts1 =>
    let (org, ts2) :=
      match ts1 with
      | [] => (none, ([] : List Frag))
      | o :: r => (some o, r)
    let (iss, ex) := certDatesLoop (none, none) ts2
    { name := some nm, issuing_organization := org,
      issue_date := iss, expiration_date := ex }

def parse_certification_item (item : Node) : Certification :=
  parse_certification_frags (textElements item)

structure Project where
  project_name : Option Frag
  role : Option Frag
  description : Option Frag
  associated_dates : Option Frag
deriving DecidableEq

def emptyProject : Project := ⟨none, none, none, none⟩

def parse_project_frags (ts0 : List Frag) : Project :=
  match ts0 with
  | [] => emptyProject
  | nm :: ts1 =>
    let dfound := ts1.find? (dateHint false)
    let ts2 := ts1.eraseP (dateHint false)
    let desc := ts2.find? (fun t => 30 < t.length)
    { project_name := some nm, role := none,
      description := desc, associated_dates := dfound }

def parse_project_item (item : Node) : Project :=
  parse_project_frags (textElements item)

structure Honor where
  title : Option Frag
  issuer : Option Frag
  date : Option Frag
  description : Option Frag
deriving DecidableEq

def emptyHonor : Honor := ⟨none, none, none, none⟩

def parse_honor_frags (ts0 : List Frag) : Honor :=
  match ts0 with
  | [] => emptyHonor
  | ttl :: ts1 =>
    let (issuer, ts2) :=
      match ts1 with
      | [] => (none, ([] : List Frag))
      | o :: r => (some o, r)
    let dfound := ts2.find? (dateHint false)
    let ts3 := ts2.eraseP (dateHint false)
    let desc := ts3.find? (fun t => 20 < t.length)
    { title := some ttl, issuer := issuer, date := dfound, description := desc }

def parse_honor_item (item : Node) : Honor :=
  parse_honor_frags (textElements item)

structure Volunteer where
  organization : Option Frag
  role : Option Frag
  cause : Option Frag
  date_range : Option Frag
  description : Option Frag
deriving DecidableEq

def emptyVolunteer : Volunteer := ⟨none, none, none, none, none⟩

def causePred (t : Frag) : Bool :=
  inStr (("cause").data) (lowerF t) ||
  [("Education").data, ("Environment").data, ("Health").data].any
    (fun k => inStr k t)

def parse_volunteer_frags (ts0 : List Frag) : Volunteer :=
  match ts0 with
  | [] => emptyVolunteer
  | role0 :: ts1 =>
    let (org, ts2) :=
      match ts1 with
      | [] => (none, ([] : List Frag))
      | o :: r => (some o, r)
    let dfound := ts2.find? (dateHint true)
    let ts3 := ts2.eraseP (dateHint true)
    let cfound := ts3.find? causePred
    let ts4 := ts3.eraseP causePred
    let desc := ts4.find? (fun t => 30 < t.length)
    { organization := org, role := some role0, cause := cfound,
      date_range := dfound, description := desc }

def parse_volunteer_item (item : Node) : Volunteer :=
  parse_volunteer_frags (textElements item)

/-!
Basic profile extraction and the per-section orchestration
(`extract`), following `_extract_basic_profile` and the
`_extract_<section>` methods.
-/

structure BasicProfile where
  full_name : Option Frag
  headline : Option Frag
  location : Option Frag
  current_company : Option Frag
  profile_summary : Option Frag
deriving DecidableEq

/-- Does `w` occur as a `\b`-delimited word starting at this position? -/
def wordAt (w : Frag) (cs : List Char) : Bool :=
  List.isPrefixOf w cs &&
  (match cs.drop w.length with
   | [] => true
   | e :: _ => !isWordCh e)

/-- `re.search(r'\b<w>\b', s)` as a Bool (`w` has only word chars). -/
def containsWordAux (w : Frag) (prevWord : Bool) : List Char → Bool
  | [] => false
  | c :: cs =>
    (!prevWord && wordAt w (c :: cs)) || containsWordAux w (isWordCh c) cs

def containsWord (w s : Frag) : Bool := containsWordAux w false s

/-- The headline exclusion `\b(area|region|country)\b` on the
lower-cased text. -/
def headlineBad (t : Frag) : Bool :=
  containsWord (("area").data) (lowerF t) ||
  containsWord (("region").data) (lowerF t) ||
  containsWord (("country").data) (lowerF t)

/-- The `[\w\s,]` class of the location regex. -/
def locClassCh (c : Char) : Bool := isWordCh c || isPySpace c || c = ','

/-- Is there a comma that is neither the first nor the last character? -/
def innerCommaAux : List Char → Bool
  | [] => false
  | [_] => false
  | c :: rest => c = ',' || innerCommaAux rest

def hasInnerComma : List Char → Bool
  | [] => false
  | _ :: rest => innerCommaAux rest

/-- `re.search(r'^[\w\s,]+,[\w\s,]+$', t)` as a Bool: every character
in the class and some comma with at least one character on each side. -/
def locShape (t : Frag) : Bool := t.all locClassCh && hasInnerComma t

/-- The full location condition of `_extract_basic_profile`. -/
def locationPred (t : Frag) : Bool :=
  (inStr (("area").data) (lowerF t) || inStr (("location").data) (lowerF t) ||
   inStr ((",").data) (lowerF t)) && locShape t && decide (t.length < 100)

/-- Python `max(list, key=len)`: the first fragment of maximal length. -/
def pyMaxByLen : List Frag → Option Frag
  | [] => none
  | t :: ts => some (ts.foldl (fun best x => if best.length < x.length then x else best) t)

def aboutKws : List Frag := [("about").data, ("summary").data]

def headlinePred (full_name : Option Frag) (t : Frag) : Bool :=
  decide (10 < t.length) && decide (t.length < 200) &&
  !(full_name == some t) && !(headlineBad t)

def extract_basic_profile (doc : List Node) : BasicProfile :=
  let h1s := findAllDoc [("h1").data] doc
  let full_name :=
    (h1s.filterMap (fun h => normalize_text (getTextN h))).find?
      (fun n => n.length < 100)
  let headline :=
    match (preorderAncL [] doc).find? (fun pa => isTagOf [("h1").data] pa.1) with
    | none => none
    | some pa =>
      match pa.2.find? (isTagOf [("div").data, ("section").data]) with
      | none => none
      | some parent =>
        ((findAllIn [("div").data, ("p").data, ("span").data] parent).filterMap
          (fun e => normalize_text (getTextN e))).find? (headlinePred full_name)
  let location :=
    ((findAllDoc [("span").data, ("div").data, ("p").data] doc).filterMap
      (fun e => normalize_text (getTextN e))).find? locationPred
  let profile_summary :=
    match find_section_by_header aboutKws doc with
    | none => none
    | some sec =>
      pyMaxByLen
        (((findAllIn [("p").data, ("div").data, ("span").data] sec).filterMap
            (fun e => normalize_text (getTextN e))).filter (fun t =>
          !(aboutKws.any (fun k => lowerF t == k)) && decide (20 < t.length)))
  { full_name := full_name, headline := headline, location := location,
    current_company := none, profile_summary := profile_summary }

/-- The shared accept-into-output loop: a parsed record is kept
exactly when its identity field is set. -/
def acceptLoop (parse : Node → ρ) (idf : ρ → Option Frag) : List Node → List ρ
  | [] => []
  | i :: rest =>
    let r := parse i
    if (idf r).isSome then r :: acceptLoop parse idf rest
    else acceptLoop parse idf rest

def experienceKws : List Frag := [("experience").data]
def educationKws : List Frag := [("education").data]
def skillsKws : List Frag := [("skills").data, ("skills & endorsements").data]
def certificationKws : List Frag :=
  [("licenses & certifications").data, ("certifications").data]
def projectKws : List Frag := [("projects").data]
def honorKws : List Frag := [("honors & awards").data, ("honors").data, ("awards").data]
def volunteerKws : List Frag := [("volunteering").data, ("volunteer experience").data]

def extract_experience (doc : List Node) : List Experience :=
  match find_section_by_header experienceKws doc with
  | none => []
  | some sec =>
    acceptLoop parse_experience_item (fun e => e.job_title)
      (get_list_items_from_section sec)

/-- Is this an accepted experience record whose end date is
`"Present"` (case-insensitively)? -/
def isPresentExp (e : Experience) : Bool :=
  match e.end_date with
  | some d => lowerF d == presentW
  | none => false

/-- The scan that copies the first `Present` record's company into the
basic profile. -/
def currentCompanyLoop : List Experience → Option Frag
  | [] => none
  | e :: rest => if isPresentExp e then e.company_name else currentCompanyLoop rest

def extract_education (doc : List Node) : List Education :=
  match find_section_by_header educationKws doc with
  | none => []
  | some sec =>
    acceptLoop parse_education_item (fun e => e.institution_name)
      (get_list_items_from_section sec)

def skillsStopW : List Frag := [("skills").data, ("endorsements").data]

/-- One step of the skills loop: bounds/keyword filter, then the
dedup test against previously accepted skills. -/
def skillsStep (acc : List Frag) (t? : Option Frag) : List Frag :=
  match t? with
  | none => acc
  | some t =>
    if decide (2 < t.length) && decide (t.length < 50) &&
       !(skillsStopW.any (fun k => lowerF t == k)) then
      if !(acc.contains t) && !(acc.any (fun s => inStr t s)) then acc ++ [t]
      else acc
    else acc

def skillsScanTags : List Frag :=
  [("span").data, ("div").data, ("li").data, ("p").data]

/-- The skills loop over the stream of (possibly absent) normalized
texts. -/
def skillsFold (ts : List (Option Frag)) : List Frag :=
  ts.foldl skillsStep []

def extract_skills (doc : List Node) : List Frag :=
  match find_section_by_header skillsKws doc with
  | none => []
  | some sec =>
    skillsFold ((findAllIn skillsScanTags sec).map
      (fun e => normalize_text (getTextN e)))

def extract_certifications (doc : List Node) : List Certification :=
  match find_section_by_header certificationKws doc with
  | none => []
  | some sec =>
    acceptLoop parse_certification_item (fun c => c.name)
      (get_list_items_from_section sec)

def extract_projects (doc : List Node) : List Project :=
  match find_section_by_header projectKws doc with
  | none => []
  | some sec =>
    acceptLoop parse_project_item (fun p => p.project_name)
      (get_list_items_from_section sec)

def extract_honors_awards (doc : List Node) : List Honor :=
  match find_section_by_header honorKws doc with
  | none => []
  | some sec =>
    acceptLoop parse_honor_item (fun h => h.title)
      (get_list_items_from_section sec)

def extract_volunteering (doc : List Node) : List Volunteer :=
  match find_section_by_header volunteerKws doc with
  | none => []
  | some sec =>
    acceptLoop parse_volunteer_item (fun v => v.organization)
      (get_list_items_from_section sec)

structure ProfileData where
  basic_profile : BasicProfile
  experience : List Experience
  education : List Education
  skills : List Frag
  certifications : List Certification
  projects : List Project
  honors_awards : List Honor
  volunteering : List Volunteer
deriving DecidableEq

/-- `_initialize_structure`: the all-empty output value. -/
def init_structure : ProfileData :=
  { basic_profile := ⟨none, none, none, none, none⟩,
    experience := [], education := [], skills := [], certifications := [],
    projects := [], honors_awards := [], volunteering := [] }

/-- The extraction orchestrator `extract`. -/
def extract (doc : List Node) : ProfileData :=
  let bp := extract_basic_profile doc
  let exps := extract_experience doc
  let cc := currentCompanyLoop exps
  { basic_profile := { bp with current_company := cc },
    experience := exps,
    education := extract_education doc,
    skills := extract_skills doc,
    certifications := extract_certifications doc,
    projects := extract_projects doc,
    honors_awards := extract_honors_awards doc,
    volunteering := extract_volunteering doc }

/-!
Auxiliary, specification-side descriptions used to state the claims.
These are deliberately written independently of the `def`s above (the
claims compare the two).
-/

/-- Exactly four ASCII digits (the year alternative of the grammar). -/
def yearShapeB (t : Frag) : Bool := t.length = 4 && t.all isDigitCh

/-- `<letters>+ <whitespace>+ <4 digits>` (the `Month YYYY` form). -/
def monthYearShapeB (t : Frag) : Bool :=
  let m := t.takeWhile isAlphaCh
  let r := t.dropWhile isAlphaCh
  let sp := r.takeWhile isPySpace
  let y := r.dropWhile isPySpace
  !m.isEmpty && !sp.isEmpty && yearShapeB y

/-- A valid range start: `Month YYYY` or `YYYY`. -/
def startFormB (t : Frag) : Bool := monthYearShapeB t || yearShapeB t

/-- Either of two concrete characters (a letter in both casings). -/
def ciEq (c lo up : Char) : Bool := c = lo || c = up

/-- The literal `Present` in any casing, character by character. -/
def presentFormB (t : Frag) : Bool :=
  match t with
  | [p0, p1, p2, p3, p4, p5, p6] =>
    ciEq p0 'p' 'P' && ciEq p1 'r' 'R' && ciEq p2 'e' 'E' && ciEq p3 's' 'S' &&
    ciEq p4 'e' 'E' && ciEq p5 'n' 'N' && ciEq p6 't' 'T'
  | _ => false

/-- Is the head (if any) outside the class `p`?  The boundary check
used to show a greedy run cannot extend. -/
def headNotP (p : Char → Bool) : List Char → Bool
  | [] => true
  | c :: _ => !p c

/-- The worked duration example from the specification. -/
def dateSampleW : Frag := ("Jan 2019 - Present · 3 yrs 2 mos ·").data

/-- A valid range end: `Month YYYY`, `YYYY` or `Present`. -/
def endFormB (t : Frag) : Bool := startFormB t || presentFormB t

/-- A dash separator: optional whitespace, `-` or `–`, optional
whitespace. -/
def dashFormB (d : Frag) : Bool :=
  let r := d.dropWhile isPySpace
  match r with
  | c :: b => (c = '-' || c = '–') && b.all isPySpace
  | [] => false

/-- What the title rule leaves for the later experience rules: the
elements after the first fragment satisfying `titlePred`, or the whole
list when none does. -/
def restAfterTitle (ts : List Frag) : List Frag :=
  if ts.any titlePred then (ts.dropWhile (fun t => !titlePred t)).tail else ts

/-!
Concrete fixtures used by the closed claim instances and witnesses.
-/

def pythonW : Frag := ("Python").data
def pythonProgW : Frag := ("Python Programming").data
def sqlW : Frag := ("SQL").data
def testUniW : Frag := ("Test University").data
def yearsTextW : Frag := ("2015 - 2019").data
def devW : Frag := ("Dev").data
def engineerLeadW : Frag := ("Engineer Lead").data

/-- A small document whose skills section is actually located (its
`section` carries a literal `recursive` attribute, the only shape the
buggy ancestor walk accepts) and accepts one fragment. -/
def skillsDoc : List Node :=
  [Node.elem (("section").data) [recursiveW]
    [Node.elem (("span").data) [] [Node.text (("Skills").data)],
     Node.elem (("li").data) [] [Node.text pythonW]]]

/-- An experience sub-block whose only fragment normalizes to absent. -/
def blankItem : Node :=
  Node.elem (("li").data) []
    [Node.elem (("span").data) [] [Node.text (("   ").data)]]

/-- An experience sub-block with one usable fragment. -/
def engineerItem : Node :=
  Node.elem (("li").data) []
    [Node.elem (("span").data) [] [Node.text (("Engineer").data)]]

/-- A `div` (with no attributes, as in ordinary HTML) whose only
heading-like fragment is `"Education"`. -/
def eduHeadDiv : Node :=
  Node.elem (("div").data) []
    [Node.elem (("span").data) [] [Node.text (("Education").data)]]

/-- The claim's education example document. -/
def eduDoc : List Node :=
  [Node.elem (("body").data) [] [eduHeadDiv]]

/-- The same document, except the `div` carries a literal `recursive`
attribute — the only shape the buggy attribute filter accepts. -/
def eduHeadDivAttr : Node :=
  Node.elem (("div").data) [recursiveW]
    [Node.elem (("span").data) [] [Node.text (("Education").data)]]

def eduDocAttr : List Node :=
  [Node.elem (("body").data) [] [eduHeadDivAttr]]

/-- A document with no matching heading fragment at all. -/
def plainDoc : List Node :=
  [Node.elem (("p").data) [] [Node.text (("Hello there").data)]]

/-- Direct children of container kind (`section`/`div`), the reading
of the claim's middle segmenter tier. -/
def containerChildren : Node → List Node
  | .elem _ _ cs => cs.filter (isTagOf sectionParentTags)
  | .text _ => []

/-- Two `section` children under a `div`: containers in the claim's
sense, but not `div`s, so the code's child count ignores them. -/
def secA : Node := Node.elem (("section").data) [] [Node.text (("A").data)]

def secB : Node := Node.elem (("section").data) [] [Node.text (("B").data)]

def divD : Node := Node.elem (("div").data) [] [secA, secB]

/-- The C5 counterexample section: no list items, and its only
descendant container is `divD`. -/
def secX : Node := Node.elem (("section").data) [] [divD]

end Scrapper

namespace Scrapper

/-! Helper lemmas. -/

theorem orO_some {a : α} {b : Option α} : orO (some a) b = some a := rfl

theorem orO_none {b : Option α} : orO none b = b := rfl

/-- The accept loop is the filter of the parsed records by presence of
the identity field. -/
theorem acceptLoop_eq_filter (parse : Node → ρ) (idf : ρ → Option Frag) :
    ∀ items : List Node,
      acceptLoop parse idf items = (items.map parse).filter (fun r => (idf r).isSome)
  | [] => rfl
  | i :: rest => by
    simp only [acceptLoop, List.map_cons, List.filter_cons]
    cases h : (idf (parse i)).isSome <;>
      simp [h, acceptLoop_eq_filter parse idf rest]

/-- The current-company scan is `find?` followed by the company
projection. -/
theorem currentCompanyLoop_eq :
    ∀ l : List Experience,
      currentCompanyLoop l = (l.find? isPresentExp).bind (fun e => e.company_name)
  | [] => rfl
  | e :: rest => by
    simp only [currentCompanyLoop, List.find?_cons]
    cases h : isPresentExp e <;> simp [h, currentCompanyLoop_eq rest]

/-- The container scan returns the `div` children of the first
container with at least two of them. -/
theorem firstFatLoop_eq :
    ∀ l : List Node,
      firstFatLoop l =
        (l.find? (fun c => 2 ≤ (divChildren c).length)).map divChildren
  | [] => rfl
  | c :: rest => by
    simp only [firstFatLoop, List.find?_cons]
    cases h : (2 ≤ (divChildren c).length : Bool) <;>
      simp_all [firstFatLoop_eq rest]

/-- The pairwise skills invariant: a later accepted skill is never a
substring of an earlier accepted one, for any accumulator already
satisfying it. -/
theorem skillsFold_pairwise_aux :
    ∀ (ts : List (Option Frag)) (acc : List Frag),
      acc.Pairwise (fun a b => inStr b a = false) →
      (ts.foldl skillsStep acc).Pairwise (fun a b => inStr b a = false)
  | [], _, h => h
  | t? :: ts, acc, h => by
    simp only [List.foldl_cons]
    apply skillsFold_pairwise_aux ts
    cases t? with
    | none => exact h
    | some t =>
      simp only [skillsStep]
      split
      · split
        · next hdedup =>
          rw [List.pairwise_append]
          refine ⟨h, List.pairwise_singleton _ _, ?_⟩
          intro a ha b hb
          rw [List.mem_singleton] at hb
          subst hb
          have h2 := (Bool.and_eq_true _ _ |>.mp hdedup).2
          rw [Bool.not_eq_true'] at h2
          rw [List.any_eq_false] at h2
          simpa using h2 a ha
        · exact h
      · exact h

/-- C2 fails as stated: with `"Python"` encountered first, both
`"Python"` and `"Python Programming"` (which contains it as a
substring) end up in the skills output. -/
theorem C2_counterexample_both_kept :
    skillsFold [some pythonW, some pythonProgW, some sqlW] =
      [pythonW, pythonProgW, sqlW] ∧
    inStr pythonW pythonProgW = true := by
  exact ⟨by decide, by decide⟩

/-- C2 (amended): the skills output never contains a fragment that
occurs as a substring of a previously accepted (earlier) skill, for
any input stream; with `"Python Programming"` first, `"Python"` is
dropped, but with `"Python"` first both fragments are kept. -/
theorem C2_skills_dedup_amended :
    (∀ ts : List (Option Frag),
      (skillsFold ts).Pairwise (fun a b => inStr b a = false)) ∧
    skillsFold [some pythonProgW, some pythonW, some sqlW] = [pythonProgW, sqlW] ∧
    skillsFold [some pythonW, some pythonProgW, some sqlW] =
      [pythonW, pythonProgW, sqlW] := by
  refine ⟨fun ts => skillsFold_pairwise_aux ts [] List.Pairwise.nil, by decide, by decide⟩

/-- C8: extracting from a document with no nodes at all returns the
all-empty profile structure; the embedding is a total function, so no
failure is possible for missing data. -/
theorem C8_empty_document : extract [] = init_structure := by rfl

/-- C1 (code evaluation at the failing input): on `"2015 - 2019"` the
`findall` of the year pattern collects the capture-group texts
`"20", "20"`, so the education parser records `start_year = "20"` and
`end_year = "20"` instead of the two years. -/
theorem C1_year_group_capture :
    yearFindall yearsTextW = [("20").data, ("20").data] ∧
    (parse_education_frags [testUniW, yearsTextW]).start_year = some (("20").data) ∧
    (parse_education_frags [testUniW, yearsTextW]).end_year = some (("20").data) := by
  exact ⟨by decide, by decide, by decide⟩

/-- The title loop finds the first fragment satisfying the title rule
and leaves exactly the elements after it (everything untouched when no
fragment qualifies). -/
theorem titleStep_eq :
    ∀ ts : List Frag, titleStep ts = (ts.find? titlePred, restAfterTitle ts)
  | [] => by simp [titleStep, restAfterTitle]
  | t :: ts => by
    cases h : titlePred t with
    | true =>
      simp [titleStep, restAfterTitle, h, List.find?_cons, List.dropWhile_cons]
    | false =>
      have ih := titleStep_eq ts
      cases hf : ts.find? titlePred with
      | some x =>
        have hx : titlePred x = true := List.find?_some hf
        have hmem : x ∈ ts := List.mem_of_find?_eq_some hf
        have hany : ts.any titlePred = true :=
          List.any_eq_true.mpr ⟨x, hmem, hx⟩
        simp [titleStep, restAfterTitle, h, hf, hany, ih,
          List.find?_cons, List.dropWhile_cons, List.any_cons]
      | none =>
        have hnone : ts.any titlePred = false := by
          rw [List.any_eq_false]
          intro a ha
          simpa using List.find?_eq_none.mp hf a ha
        simp [titleStep, restAfterTitle, h, hf, hnone, ih,
          List.find?_cons, List.any_cons]

/-- C9: the experience chain assigns as title the first fragment of
length above 3 containing neither `"experience"` nor a middle dot
(case-insensitively); short fragments are never titles; every fragment
before the chosen title is dropped before the later rules run. -/
theorem C9_experience_title_rule :
    (∀ ts : List Frag, titleStep ts = (ts.find? titlePred, restAfterTitle ts)) ∧
    (∀ (ts : List Frag) (dl : Option (List Frag)),
      (parse_experience_frags ts dl).job_title = ts.find? titlePred) ∧
    (∀ t : Frag, t.length ≤ 3 → titlePred t = false) := by
  refine ⟨titleStep_eq, ?_, ?_⟩
  · intro ts dl
    cases ts with
    | nil => rfl
    | cons t ts' =>
      simp [parse_experience_frags, titleStep_eq]
  · intro t h
    simp only [titlePred, Bool.and_eq_false_iff]
    left; left
    simpa using h

/-- C9 witness: on `["Dev", "Engineer Lead"]` the title is
`"Engineer Lead"` (the 3-character `"Dev"` can never be a title). -/
theorem C9_witness :
    titleStep [devW, engineerLeadW] = (some engineerLeadW, []) ∧
    titlePred devW = false := by
  constructor
  · exact (C9_experience_title_rule.1 [devW, engineerLeadW]).trans (by decide)
  · exact C9_experience_title_rule.2.2 devW (by decide)

/-- Every fragment the skills fold accepts passed the bounds/keyword
filter, given the accumulator already did. -/
theorem skillsFold_bounds_aux :
    ∀ (ts : List (Option Frag)) (acc : List Frag),
      (∀ s ∈ acc, 2 < s.length ∧ s.length < 50 ∧
        lowerF s ≠ ("skills").data ∧ lowerF s ≠ ("endorsements").data) →
      ∀ s ∈ ts.foldl skillsStep acc,
        2 < s.length ∧ s.length < 50 ∧
        lowerF s ≠ ("skills").data ∧ lowerF s ≠ ("endorsements").data
  | [], _, h => h
  | t? :: ts, acc, h => by
    simp only [List.foldl_cons]
    apply skillsFold_bounds_aux ts
    cases t? with
    | none => exact h
    | some t =>
      simp only [skillsStep]
      split
      · next hcond =>
        split
        · intro s hs
          rcases List.mem_append.mp hs with hs' | hs'
          · exact h s hs'
          · rw [List.mem_singleton] at hs'
            subst hs'
            simp only [skillsStopW, List.any_cons, List.any_nil,
              Bool.and_eq_true, Bool.not_eq_true', Bool.or_eq_false_iff,
              decide_eq_true_eq] at hcond
            refine ⟨hcond.1.1, hcond.1.2, ?_, ?_⟩
            · simpa using hcond.2.1
            · simpa using hcond.2.2.1
        · exact h
      · exact h

/-- C10: every string in the extracted skills list has length strictly
between 2 and 50 (exclusive) and its lower-cased form is neither
`"skills"` nor `"endorsements"`. -/
theorem C10_skills_bounds :
    ∀ (doc : List Node) (s : Frag), s ∈ (extract doc).skills →
      2 < s.length ∧ s.length < 50 ∧
      lowerF s ≠ ("skills").data ∧ lowerF s ≠ ("endorsements").data := by
  intro doc s hs
  have hskills : (extract doc).skills = extract_skills doc := by
    simp [extract]
  rw [hskills] at hs
  unfold extract_skills at hs
  revert hs
  cases find_section_by_header skillsKws doc with
  | none => intro hs; simp at hs
  | some sec =>
    intro hs
    exact skillsFold_bounds_aux _ [] (by intro s hs'; simp at hs') s hs

/-- C10 witness: `"Python"` is accepted from a concrete skills section
and satisfies the bounds. -/
theorem C10_witness :
    2 < pythonW.length ∧ pythonW.length < 50 ∧
    lowerF pythonW ≠ ("skills").data ∧ lowerF pythonW ≠ ("endorsements").data :=
  C10_skills_bounds skillsDoc pythonW (by decide)

/-- C7: the basic profile's current company is the company name of
the first accepted experience record whose end date is `"Present"`
case-insensitively, and stays unset when there is no such record. -/
theorem C7_current_company :
    (∀ doc : List Node,
      (extract doc).basic_profile.current_company =
        ((extract doc).experience.find? isPresentExp).bind (fun e => e.company_name)) ∧
    (∀ doc : List Node,
      (∀ e ∈ (extract doc).experience, isPresentExp e = false) →
      (extract doc).basic_profile.current_company = none) := by
  have main : ∀ doc : List Node,
      (extract doc).basic_profile.current_company =
        ((extract doc).experience.find? isPresentExp).bind (fun e => e.company_name) := by
    intro doc
    simp [extract, currentCompanyLoop_eq]
  refine ⟨main, ?_⟩
  intro doc h
  rw [main doc]
  have : (extract doc).experience.find? isPresentExp = none := by
    rw [List.find?_eq_none]
    intro e he
    simp [h e he]
  rw [this]
  rfl

/-- C7 witness: with no experience records at all, the current company
stays unset. -/
theorem C7_witness : (extract []).basic_profile.current_company = none :=
  C7_current_company.2 [] (by decide)

/-- C6: for each of the six record types, a parsed candidate record is
in the output list exactly when its identity field (title,
institution, name, project name, title, organization respectively) is
set; in particular a sub-block whose fragments all normalize to absent
yields a title-less experience record that is dropped. -/
theorem C6_identity_gate :
    (∀ (items : List Node) (r : Experience),
      r ∈ acceptLoop parse_experience_item (fun e => e.job_title) items ↔
        r ∈ items.map parse_experience_item ∧ r.job_title.isSome = true) ∧
    (∀ (items : List Node) (r : Education),
      r ∈ acceptLoop parse_education_item (fun e => e.institution_name) items ↔
        r ∈ items.map parse_education_item ∧ r.institution_name.isSome = true) ∧
    (∀ (items : List Node) (r : Certification),
      r ∈ acceptLoop parse_certification_item (fun c => c.name) items ↔
        r ∈ items.map parse_certification_item ∧ r.name.isSome = true) ∧
    (∀ (items : List Node) (r : Project),
      r ∈ acceptLoop parse_project_item (fun p => p.project_name) items ↔
        r ∈ items.map parse_project_item ∧ r.project_name.isSome = true) ∧
    (∀ (items : List Node) (r : Honor),
      r ∈ acceptLoop parse_honor_item (fun h => h.title) items ↔
        r ∈ items.map parse_honor_item ∧ r.title.isSome = true) ∧
    (∀ (items : List Node) (r : Volunteer),
      r ∈ acceptLoop parse_volunteer_item (fun v => v.organization) items ↔
        r ∈ items.map parse_volunteer_item ∧ r.organization.isSome = true) ∧
    ((parse_experience_item blankItem).job_title = none ∧
      acceptLoop parse_experience_item (fun e => e.job_title) [blankItem] = []) := by
  refine ⟨?_, ?_, ?_, ?_, ?_, ?_, by decide, by decide⟩ <;>
    · intro items r
      rw [acceptLoop_eq_filter]
      exact List.mem_filter

/-- C6 witness: a record with a set identity field is accepted. -/
theorem C6_witness :
    parse_experience_item engineerItem ∈
      acceptLoop parse_experience_item (fun e => e.job_title) [engineerItem] :=
  (C6_identity_gate.1 [engineerItem] _).mpr ⟨by simp, by decide⟩

/-- C5: the block segmenter returns all recursively found list items
when there are any; otherwise the `div` children of the first
descendant container (`ul`/`ol`/`div`) with at least two direct `div`
children; otherwise the empty sequence. -/
theorem C5_segmenter :
    ∀ sec : Node,
      ((descendantsOf sec).any (isTagOf [("li").data]) = true →
        get_list_items_from_section sec =
          (descendantsOf sec).filter (isTagOf [("li").data])) ∧
      (∀ c : Node,
        (descendantsOf sec).any (isTagOf [("li").data]) = false →
        ((descendantsOf sec).filter
            (isTagOf [("ul").data, ("ol").data, ("div").data])).find?
            (fun c => 2 ≤ (divChildren c).length) = some c →
        get_list_items_from_section sec = divChildren c) ∧
      ((descendantsOf sec).any (isTagOf [("li").data]) = false →
        ((descendantsOf sec).filter
            (isTagOf [("ul").data, ("ol").data, ("div").data])).find?
            (fun c => 2 ≤ (divChildren c).length) = none →
        get_list_items_from_section sec = []) := by
  intro sec
  refine ⟨?_, ?_, ?_⟩
  · intro hany
    obtain ⟨x, hx, hpx⟩ := List.any_eq_true.mp hany
    have hne : (descendantsOf sec).filter (isTagOf [("li").data]) ≠ [] := by
      intro hnil
      exact absurd hpx (by simpa using List.filter_eq_nil_iff.mp hnil x hx)
    simp [get_list_items_from_section, findAllIn, List.isEmpty_eq_false.mpr hne]
  · intro c hany hfind
    have hnil : (descendantsOf sec).filter (isTagOf [("li").data]) = [] :=
      List.filter_eq_nil_iff.mpr (by simpa using List.any_eq_false.mp hany)
    simp [get_list_items_from_section, findAllIn, hnil, firstFatLoop_eq, hfind]
  · intro hany hfind
    have hnil : (descendantsOf sec).filter (isTagOf [("li").data]) = [] :=
      List.filter_eq_nil_iff.mpr (by simpa using List.any_eq_false.mp hany)
    simp [get_list_items_from_section, findAllIn, hnil, firstFatLoop_eq, hfind]

/-- C5 witness: a section with no list items and no fat container
yields the empty sequence. -/
theorem C5_witness : get_list_items_from_section eduHeadDiv = [] :=
  (C5_segmenter eduHeadDiv).2.2 (by decide) (by rfl)

/-- No heading-like element matching the keywords means no section is
found. -/
theorem find_section_none_of_no_match (kws : List Frag) (doc : List Node)
    (h : ∀ pa ∈ preorderAncL [] doc, headerMatch kws pa.1 = false) :
    find_section_by_header kws doc = none := by
  unfold find_section_by_header
  rw [List.findSome?_eq_none_iff]
  intro pa hpa
  simp [h pa hpa]

/-- On a document in which no ancestor carries a literal `recursive`
attribute — i.e. any ordinary HTML document — the locator finds
nothing, whatever the keywords and however many headings match. -/
theorem find_section_none_without_attr (kws : List Frag) (doc : List Node)
    (h : ∀ pa ∈ preorderAncL [] doc, ∀ n ∈ pa.2, hasAttr recursiveW n = false) :
    find_section_by_header kws doc = none := by
  unfold find_section_by_header
  rw [List.findSome?_eq_none_iff]
  intro pa hpa
  have hfind : pa.2.find?
      (fun n => isTagOf sectionParentTags n && hasAttr recursiveW n) = none := by
    rw [List.find?_eq_none]
    intro n hn
    simp [h pa hpa n hn]
  simp [hfind]

/-- C4 (code evaluation at the failing input): on the claim's
education example the locator returns `none`, because
`find_parent(['section', 'div'], recursive=True)` filters ancestors by
possession of a literal `recursive` attribute; the intended locator
(without the stray keyword) returns the ancestor `div`, and so does
the buggy one once that attribute is artificially present.  The
absent-on-no-match half of the claim does hold. -/
theorem C4_section_locator_bug :
    find_section_by_header educationKws eduDoc = none ∧
    find_section_intended educationKws eduDoc = some eduHeadDiv ∧
    find_section_by_header educationKws eduDocAttr = some eduHeadDivAttr ∧
    find_section_by_header educationKws plainDoc = none := by
  exact ⟨by rfl, by rfl, by rfl, by rfl⟩

/-- C5 fails as stated: `secX` has no list items and its first (only)
descendant container `divD` has two direct container children, so the
claim's middle tier must return those two `section` children — but the
segmenter returns the empty sequence, because the code only counts and
returns `div` children. -/
theorem C5_counterexample :
    (descendantsOf secX).any (isTagOf [("li").data]) = false ∧
    ((descendantsOf secX).filter (isTagOf sectionParentTags)).find?
        (fun c => decide (2 ≤ (containerChildren c).length)) = some divD ∧
    containerChildren divD = [secA, secB] ∧
    get_list_items_from_section secX = [] := by
  exact ⟨by decide, by rfl, by rfl, by rfl⟩

/-! Character-class facts used by the date-grammar proof. -/

theorem all_cons_split {p : α → Bool} {x : α} {xs : List α}
    (h : (x :: xs).all p = true) : p x = true ∧ xs.all p = true := by
  simpa using h

theorem space_enum {c : Char} (h : isPySpace c = true) :
    c = ' ' ∨ c = '\t' ∨ c = '\n' ∨ c = '\r' ∨ c = Char.ofNat 11 ∨ c = Char.ofNat 12 := by
  simpa [isPySpace, or_assoc] using h

theorem space_not_alpha {c : Char} (h : isPySpace c = true) : isAlphaCh c = false := by
  rcases space_enum h with rfl | rfl | rfl | rfl | rfl | rfl <;> decide

theorem space_not_digit {c : Char} (h : isPySpace c = true) : isDigitCh c = false := by
  rcases space_enum h with rfl | rfl | rfl | rfl | rfl | rfl <;> decide

theorem space_ne_dot {c : Char} (h : isPySpace c = true) : c ≠ '·' := by
  rcases space_enum h with rfl | rfl | rfl | rfl | rfl | rfl <;> decide

theorem digit_not_alpha {c : Char} (h : isDigitCh c = true) : isAlphaCh c = false := by
  simp only [isDigitCh, Bool.and_eq_true, decide_eq_true_eq] at h
  simp only [isAlphaCh, Bool.or_eq_false_iff, Bool.and_eq_false_iff,
    decide_eq_false_iff_not]
  constructor
  · left
    intro hle
    exact absurd (le_trans hle h.2) (by decide)
  · left
    intro hle
    exact absurd (le_trans hle h.2) (by decide)

theorem alpha_not_space {c : Char} (h : isAlphaCh c = true) : isPySpace c = false := by
  cases hs : isPySpace c with
  | false => rfl
  | true => exact absurd h (by simp [space_not_alpha hs])

theorem digit_not_space {c : Char} (h : isDigitCh c = true) : isPySpace c = false := by
  cases hs : isPySpace c with
  | false => rfl
  | true => exact absurd h (by simp [space_not_digit hs])

theorem alpha_ne_dot {c : Char} (h : isAlphaCh c = true) : c ≠ '·' := by
  intro rfl'
  subst rfl'
  exact absurd h (by decide)

theorem digit_ne_dot {c : Char} (h : isDigitCh c = true) : c ≠ '·' := by
  intro rfl'
  subst rfl'
  exact absurd h (by decide)

/-! Run lemmas: when the continuation succeeds at the natural split
point of a disjoint-class decomposition, each compiled quantifier
matches exactly that split. -/

theorem starGC_run {p : Char → Bool} {k : List Char → List Char → Option α} :
    ∀ (xs : List Char) (acc ys : List Char) {v : α},
      xs.all p = true → headNotP p ys = true → k (acc ++ xs) ys = some v →
      starGreedyCap p acc k (xs ++ ys) = some v
  | [], acc, ys, v, _, hy, hk => by
    cases ys with
    | nil => simpa using hk
    | cons y ys' =>
      have hpy : p y = false := by simpa [headNotP] using hy
      simpa [starGreedyCap, hpy] using hk
  | x :: xs, acc, ys, v, hall, hy, hk => by
    have hx : p x = true := (all_cons_split hall).1
    have hxs : xs.all p = true := (all_cons_split hall).2
    have hk' : k ((acc ++ [x]) ++ xs) ys = some v := by
      simpa [List.append_assoc] using hk
    have ih := starGC_run xs (acc ++ [x]) ys hxs hy hk'
    simp only [List.cons_append, starGreedyCap, hx, if_true, List.append_eq, ih, orO_some]

theorem plusGC_run (p : Char → Bool) {k : List Char → List Char → Option α}
    (x : Char) (xs ys : List Char) {v : α}
    (hall : (x :: xs).all p = true) (hy : headNotP p ys = true)
    (hk : k (x :: xs) ys = some v) :
    plusGreedyCap p k ((x :: xs) ++ ys) = some v := by
  have hx : p x = true := (all_cons_split hall).1
  have hxs : xs.all p = true := (all_cons_split hall).2
  simp only [List.cons_append, plusGreedyCap, hx, if_true]
  exact starGC_run xs [x] ys hxs hy hk

theorem list_len4 {y : List α} (h : y.length = 4) :
    ∃ a b c d, y = [a, b, c, d] := by
  rcases y with _ | ⟨a, y⟩
  · simp at h
  rcases y with _ | ⟨b, y⟩
  · simp at h
  rcases y with _ | ⟨c, y⟩
  · simp at h
  rcases y with _ | ⟨d, y⟩
  · simp at h
  rcases y with _ | ⟨e, y⟩
  · exact ⟨a, b, c, d, rfl⟩
  · simp at h

theorem digits4_run {y : List Char} (h : yearShapeB y = true)
    (k : List Char → List Char → Option α) (ys : List Char) :
    digits4 k (y ++ ys) = k y ys := by
  simp only [yearShapeB, Bool.and_eq_true, decide_eq_true_eq] at h
  obtain ⟨a, b, c, d, rfl⟩ := list_len4 h.1
  have hall := h.2
  simp only [List.all_cons, List.all_nil, Bool.and_eq_true, Bool.and_true] at hall
  simp [digits4, hall.1, hall.2.1, hall.2.2.1, hall.2.2.2]

theorem ciLit_run {k : List Char → List Char → Option α} :
    ∀ (xs : List Char) (w acc ys : List Char),
      lowerF xs = w → ciLitCap w acc k (xs ++ ys) = k (acc ++ xs) ys
  | [], w, acc, ys, hw => by
    simp only [lowerF, List.map_nil] at hw
    subst hw
    simp [ciLitCap]
  | x :: xs, w, acc, ys, hw => by
    simp only [lowerF, List.map_cons] at hw
    subst hw
    simp only [List.cons_append, ciLitCap, if_pos rfl]
    have := ciLit_run (k := k) xs (lowerF xs) (acc ++ [x]) ys rfl
    simp only [lowerF] at this
    rw [this]
    simp [List.append_assoc]

/-! Failure lemmas: a compiled alternative whose first character class
cannot start, or whose every backtracking continuation fails, returns
`none`. -/

theorem plusGC_none_of_head {p : Char → Bool} {k : List Char → List Char → Option α}
    {cs : List Char} (h : headNotP p cs = true) :
    plusGreedyCap p k cs = none := by
  cases cs with
  | nil => rfl
  | cons c cs' =>
    have : p c = false := by simpa [headNotP] using h
    simp [plusGreedyCap, this]

theorem starGC_none_suffix {p : Char → Bool} {k : List Char → List Char → Option α} :
    ∀ cs : List Char, (∀ acc r, r <:+ cs → k acc r = none) →
      ∀ acc, starGreedyCap p acc k cs = none
  | [], h, acc => h acc [] (List.suffix_refl _)
  | c :: cs, h, acc => by
    have hk := h acc (c :: cs) (List.suffix_refl _)
    cases hp : p c with
    | false => simp [starGreedyCap, hp, hk]
    | true =>
      have ih := starGC_none_suffix (p := p) (k := k) cs
        (fun acc' r hr => h acc' r (hr.trans (List.suffix_cons c cs))) (acc ++ [c])
      simp [starGreedyCap, hp, ih, hk, orO_none]

theorem monthYear_none_of_head {k : List Char → List Char → Option α}
    {cs : List Char} (h : headNotP isAlphaCh cs = true) :
    monthYearCap k cs = none :=
  plusGC_none_of_head h

theorem monthYear_none_of_alpha {k : List Char → List Char → Option α}
    {cs : List Char} (h : cs.all isAlphaCh = true) :
    monthYearCap k cs = none := by
  cases cs with
  | nil => rfl
  | cons c cs' =>
    have hc : isAlphaCh c = true := (all_cons_split h).1
    have hcs : cs'.all isAlphaCh = true := (all_cons_split h).2
    simp only [monthYearCap, plusGreedyCap, hc, if_true]
    apply starGC_none_suffix
    intro acc r hr
    apply plusGC_none_of_head
    cases r with
    | nil => rfl
    | cons d r' =>
      have hd : isAlphaCh d = true :=
        List.all_eq_true.mp hcs d (hr.subset (List.mem_cons_self d r'))
      simpa [headNotP] using alpha_not_space hd

theorem digits4_none_of_head {k : List Char → List Char → Option α}
    {cs : List Char} (h : headNotP isDigitCh cs = true) :
    digits4 k cs = none := by
  rcases cs with _ | ⟨a, _ | ⟨b, _ | ⟨c, _ | ⟨d, r⟩⟩⟩⟩ <;> try rfl
  have : isDigitCh a = false := by simpa [headNotP] using h
  simp [digits4, this]

/-! Decomposition of the grammar-form predicates into the structural
facts the run lemmas consume. -/

theorem monthYearShape_decomp {t : Frag} (h : monthYearShapeB t = true) :
    ∃ m sp y, t = m ++ sp ++ y ∧ m ≠ [] ∧ m.all isAlphaCh = true ∧
      sp ≠ [] ∧ sp.all isPySpace = true ∧ yearShapeB y = true := by
  simp only [monthYearShapeB, Bool.and_eq_true, Bool.not_eq_true',
    List.isEmpty_eq_false] at h
  refine ⟨t.takeWhile isAlphaCh, (t.dropWhile isAlphaCh).takeWhile isPySpace,
    (t.dropWhile isAlphaCh).dropWhile isPySpace, ?_, h.1.1, List.all_takeWhile,
    h.1.2, List.all_takeWhile, h.2⟩
  rw [List.append_assoc, List.takeWhile_append_dropWhile,
    List.takeWhile_append_dropWhile]

theorem dash_decomp {d : Frag} (h : dashFormB d = true) :
    ∃ a c b, d = a ++ c :: b ∧ a.all isPySpace = true ∧
      (c = '-' ∨ c = '–') ∧ b.all isPySpace = true := by
  simp only [dashFormB] at h
  split at h
  · next c b heq =>
    rw [Bool.and_eq_true] at h
    refine ⟨d.takeWhile isPySpace, c, b, ?_, List.all_takeWhile, ?_, h.2⟩
    · rw [← heq, List.takeWhile_append_dropWhile]
    · simpa using h.1
  · exact absurd h (by simp)

theorem present_decomp {t : Frag} (h : presentFormB t = true) :
    lowerF t = presentW ∧ t.all isAlphaCh = true ∧
      headNotP isDigitCh t = true ∧ headNotP isPySpace t = true ∧
      headNotP isPySpace t.reverse = true ∧ (∀ c ∈ t, c ≠ '·') ∧ t ≠ [] := by
  obtain ⟨p0, p1, p2, p3, p4, p5, p6, rfl⟩ :
      ∃ p0 p1 p2 p3 p4 p5 p6, t = [p0, p1, p2, p3, p4, p5, p6] := by
    rcases t with _ | ⟨p0, _ | ⟨p1, _ | ⟨p2, _ | ⟨p3, _ | ⟨p4, _ | ⟨p5, _ | ⟨p6, _ | ⟨p7, r⟩⟩⟩⟩⟩⟩⟩⟩ <;>
      first
      | exact ⟨_, _, _, _, _, _, _, rfl⟩
      | exact absurd h (by simp [presentFormB])
  simp only [presentFormB, ciEq, Bool.and_eq_true, Bool.or_eq_true,
    decide_eq_true_eq] at h
  obtain ⟨⟨⟨⟨⟨⟨h0, h1⟩, h2⟩, h3⟩, h4⟩, h5⟩, h6⟩ := h
  have l0 : lowerCh p0 = 'p' := by rcases h0 with rfl | rfl <;> decide
  have l1 : lowerCh p1 = 'r' := by rcases h1 with rfl | rfl <;> decide
  have l2 : lowerCh p2 = 'e' := by rcases h2 with rfl | rfl <;> decide
  have l3 : lowerCh p3 = 's' := by rcases h3 with rfl | rfl <;> decide
  have l4 : lowerCh p4 = 'e' := by rcases h4 with rfl | rfl <;> decide
  have l5 : lowerCh p5 = 'n' := by rcases h5 with rfl | rfl <;> decide
  have l6 : lowerCh p6 = 't' := by rcases h6 with rfl | rfl <;> decide
  have a0 : isAlphaCh p0 = true := by rcases h0 with rfl | rfl <;> decide
  have a1 : isAlphaCh p1 = true := by rcases h1 with rfl | rfl <;> decide
  have a2 : isAlphaCh p2 = true := by rcases h2 with rfl | rfl <;> decide
  have a3 : isAlphaCh p3 = true := by rcases h3 with rfl | rfl <;> decide
  have a4 : isAlphaCh p4 = true := by rcases h4 with rfl | rfl <;> decide
  have a5 : isAlphaCh p5 = true := by rcases h5 with rfl | rfl <;> decide
  have a6 : isAlphaCh p6 = true := by rcases h6 with rfl | rfl <;> decide
  refine ⟨?_, ?_, ?_, ?_, ?_, ?_, by simp⟩
  · simp only [lowerF, List.map_cons, List.map_nil, l0, l1, l2, l3, l4, l5, l6]
    decide
  · simp [a0, a1, a2, a3, a4, a5, a6]
  · have hd0 : isDigitCh p0 = false := by
      cases hd : isDigitCh p0 with
      | false => rfl
      | true => exact absurd (digit_not_alpha hd) (by simp [a0])
    simpa [headNotP] using hd0
  · simpa [headNotP] using alpha_not_space a0
  · have hrev : ([p0, p1, p2, p3, p4, p5, p6] : List Char).reverse =
        [p6, p5, p4, p3, p2, p1, p0] := by rfl
    rw [hrev]
    simpa [headNotP] using alpha_not_space a6
  · intro c hc
    simp only [List.mem_cons, List.not_mem_nil, or_false] at hc
    rcases hc with rfl | rfl | rfl | rfl | rfl | rfl | rfl
    · exact alpha_ne_dot a0
    · exact alpha_ne_dot a1
    · exact alpha_ne_dot a2
    · exact alpha_ne_dot a3
    · exact alpha_ne_dot a4
    · exact alpha_ne_dot a5
    · exact alpha_ne_dot a6

/-- Greedy matching of `[A-Za-z]+\s+\d{4}` consumes exactly a
month-year decomposition when the continuation accepts the remainder. -/
theorem monthYear_run {m sp y : List Char} (hm : m ≠ []) (hma : m.all isAlphaCh = true)
    (hsp : sp ≠ []) (hspa : sp.all isPySpace = true) (hy : yearShapeB y = true)
    (ys : List Char) {k : List Char → List Char → Option α} {v : α}
    (hk : k (m ++ sp ++ y) ys = some v) :
    monthYearCap k (m ++ sp ++ y ++ ys) = some v := by
  rcases m with _ | ⟨a, m'⟩
  · exact absurd rfl hm
  rcases sp with _ | ⟨b, sp'⟩
  · exact absurd rfl hsp
  have hb : isPySpace b = true := (all_cons_split hspa).1
  have hy' : y.length = 4 ∧ y.all isDigitCh = true := by
    simpa [yearShapeB] using hy
  obtain ⟨c1, c2, c3, c4, rfl⟩ := list_len4 hy'.1
  have hc1 : isDigitCh c1 = true := (all_cons_split hy'.2).1
  unfold monthYearCap
  rw [List.append_assoc, List.append_assoc]
  refine plusGC_run isAlphaCh a m' _ hma ?_ ?_
  · simpa [headNotP] using space_not_alpha hb
  refine plusGC_run isPySpace b sp' _ hspa ?_ ?_
  · simpa [headNotP] using digit_not_space hc1
  rw [digits4_run hy]
  simpa using hk

/-- The first group of the date regex consumes exactly a valid start
form when the continuation accepts the remainder. -/
theorem group1_run {s1 : Frag} (h : startFormB s1 = true)
    {k : List Char → List Char → Option α} {rest : List Char} {v : α}
    (hk : k s1 rest = some v) :
    group1Cap k (s1 ++ rest) = some v := by
  simp only [startFormB, Bool.or_eq_true] at h
  rcases h with hmy | hyr
  · obtain ⟨m, sp, y, rfl, hm, hma, hsp, hspa, hy⟩ := monthYearShape_decomp hmy
    unfold group1Cap
    have hrun := monthYear_run hm hma hsp hspa hy rest (by simpa using hk)
    rw [show m ++ sp ++ y ++ rest = (m ++ sp ++ y) ++ rest by simp] at hrun
    rw [hrun, orO_some]
  · have hyr' : s1.length = 4 ∧ s1.all isDigitCh = true := by
      simpa [yearShapeB] using hyr
    obtain ⟨a, b, c, d, rfl⟩ := list_len4 hyr'.1
    have ha : isDigitCh a = true := (all_cons_split hyr'.2).1
    unfold group1Cap
    rw [monthYear_none_of_head (by simpa [headNotP] using digit_not_alpha ha), orO_none]
    rw [digits4_run hyr]
    exact hk

/-- The second group of the date regex consumes exactly a valid end
form standing at the end of the text. -/
theorem group2_run {s2 : Frag} (h : endFormB s2 = true)
    {k : List Char → List Char → Option α} {v : α}
    (hk : k s2 [] = some v) : group2Cap k s2 = some v := by
  simp only [endFormB, startFormB, Bool.or_eq_true] at h
  rcases h with (hmy | hyr) | hpr
  · obtain ⟨m, sp, y, rfl, hm, hma, hsp, hspa, hy⟩ := monthYearShape_decomp hmy
    unfold group2Cap
    have hrun := monthYear_run hm hma hsp hspa hy [] (by simpa using hk)
    rw [show m ++ sp ++ y ++ ([] : List Char) = m ++ sp ++ y by simp] at hrun
    rw [hrun, orO_some]
  · have hyr' : s2.length = 4 ∧ s2.all isDigitCh = true := by
      simpa [yearShapeB] using hyr
    obtain ⟨a, b, c, d, rfl⟩ := list_len4 hyr'.1
    have ha : isDigitCh a = true := (all_cons_split hyr'.2).1
    unfold group2Cap
    rw [monthYear_none_of_head (by simpa [headNotP] using digit_not_alpha ha), orO_none]
    have hdig := digits4_run hyr k ([] : List Char)
    rw [List.append_nil] at hdig
    rw [hdig, hk, orO_some]
  · obtain ⟨hlow, halpha, hdig, hsp, hrev, hdot, hne⟩ := present_decomp hpr
    unfold group2Cap
    rw [monthYear_none_of_alpha halpha, orO_none,
      digits4_none_of_head hdig, orO_none]
    have hci := ciLit_run (k := k) s2 presentW [] [] hlow
    rw [List.append_nil, List.nil_append] at hci
    rw [hci]
    exact hk

/-- The separator matcher consumes exactly a dash form when the
remainder starts outside the whitespace class. -/
theorem sep_run {d : Frag} (h : dashFormB d = true) {k : List Char → Option α}
    {rest : List Char} {v : α} (hrest : headNotP isPySpace rest = true)
    (hk : k rest = some v) :
    sepCap k (d ++ rest) = some v := by
  obtain ⟨a, c, b, rfl, ha, hc, hb⟩ := dash_decomp h
  have hcb : (c = '-' || c = '–') = true := by
    rcases hc with rfl | rfl <;> decide
  have hcs : isPySpace c = false := by
    rcases hc with rfl | rfl <;> decide
  rw [show (a ++ c :: b) ++ rest = a ++ (c :: (b ++ rest)) by simp]
  unfold sepCap
  apply starGC_run a [] (c :: (b ++ rest)) ha (by simpa [headNotP] using hcs)
  simp only [hcb, if_true]
  exact starGC_run b [] rest hb hrest (by simpa using hk)

/-! End-shape facts feeding the strip and no-duration arguments. -/

theorem startForm_ends {t : Frag} (h : startFormB t = true) :
    headNotP isPySpace t = true ∧ headNotP isPySpace t.reverse = true ∧
      t ≠ [] ∧ (∀ c ∈ t, c ≠ '·') := by
  simp only [startFormB, Bool.or_eq_true] at h
  rcases h with hmy | hyr
  · obtain ⟨m, sp, y, rfl, hm, hma, hsp, hspa, hy⟩ := monthYearShape_decomp hmy
    have hy' : y.length = 4 ∧ y.all isDigitCh = true := by
      simpa [yearShapeB] using hy
    obtain ⟨c1, c2, c3, c4, rfl⟩ := list_len4 hy'.1
    rcases m with _ | ⟨a, m'⟩
    · exact absurd rfl hm
    have ha : isAlphaCh a = true := (all_cons_split hma).1
    have hally : ([c1, c2, c3, c4] : List Char).all isDigitCh = true := hy'.2
    simp only [List.all_cons, List.all_nil, Bool.and_eq_true, Bool.and_true] at hally
    refine ⟨?_, ?_, by simp, ?_⟩
    · simpa [headNotP, List.cons_append] using alpha_not_space ha
    · rw [show ((a :: m') ++ sp) ++ [c1, c2, c3, c4] = (a :: m') ++ sp ++ [c1, c2, c3, c4] by simp]
      simp only [List.reverse_append, List.reverse_cons]
      simpa [headNotP, List.cons_append] using digit_not_space hally.2.2.2
    · intro c hc
      rcases List.mem_append.mp hc with hc' | hcy
      · rcases List.mem_append.mp hc' with hcm | hcs
        · exact alpha_ne_dot (List.all_eq_true.mp hma c hcm)
        · exact space_ne_dot (List.all_eq_true.mp hspa c hcs)
      · simp only [List.mem_cons, List.not_mem_nil, or_false] at hcy
        rcases hcy with rfl | rfl | rfl | rfl
        · exact digit_ne_dot hally.1
        · exact digit_ne_dot hally.2.1
        · exact digit_ne_dot hally.2.2.1
        · exact digit_ne_dot hally.2.2.2
  · have hyr' : t.length = 4 ∧ t.all isDigitCh = true := by
      simpa [yearShapeB] using hyr
    obtain ⟨a, b, c, d, rfl⟩ := list_len4 hyr'.1
    have hall := hyr'.2
    simp only [List.all_cons, List.all_nil, Bool.and_eq_true, Bool.and_true] at hall
    refine ⟨?_, ?_, by simp, ?_⟩
    · simpa [headNotP] using digit_not_space hall.1
    · simpa [headNotP] using digit_not_space hall.2.2.2
    · intro x hx
      simp only [List.mem_cons, List.not_mem_nil, or_false] at hx
      rcases hx with rfl | rfl | rfl | rfl
      · exact digit_ne_dot hall.1
      · exact digit_ne_dot hall.2.1
      · exact digit_ne_dot hall.2.2.1
      · exact digit_ne_dot hall.2.2.2

theorem endForm_ends {t : Frag} (h : endFormB t = true) :
    headNotP isPySpace t = true ∧ headNotP isPySpace t.reverse = true ∧
      t ≠ [] ∧ (∀ c ∈ t, c ≠ '·') := by
  simp only [endFormB, Bool.or_eq_true] at h
  rcases h with hs | hpr
  · exact startForm_ends hs
  · obtain ⟨_, _, _, hsp, hrev, hdot, hne⟩ := present_decomp hpr
    exact ⟨hsp, hrev, hne, hdot⟩

theorem dashForm_no_dot {d : Frag} (h : dashFormB d = true) :
    ∀ x ∈ d, x ≠ '·' := by
  obtain ⟨a, c, b, rfl, ha, hc, hb⟩ := dash_decomp h
  intro x hx
  rcases List.mem_append.mp hx with hxa | hxc
  · exact space_ne_dot (List.all_eq_true.mp ha x hxa)
  · rcases List.mem_cons.mp hxc with rfl | hxb
    · rcases hc with rfl | rfl <;> decide
    · exact space_ne_dot (List.all_eq_true.mp hb x hxb)

theorem dropWhile_of_headNot {p : Char → Bool} {l : List Char}
    (h : headNotP p l = true) : l.dropWhile p = l := by
  cases l with
  | nil => rfl
  | cons c cs =>
    have hc : p c = false := by simpa [headNotP] using h
    simp [List.dropWhile_cons, hc]

theorem pyStrip_eq_self {t : Frag} (h1 : headNotP isPySpace t = true)
    (h2 : headNotP isPySpace t.reverse = true) : pyStrip t = t := by
  unfold pyStrip
  rw [dropWhile_of_headNot h1, dropWhile_of_headNot h2, List.reverse_reverse]

/-- The full date regex matched at the very start of a well-formed
range text captures exactly the start and end forms. -/
theorem dateAt_run {s1 d s2 : Frag} (h1 : startFormB s1 = true)
    (hd : dashFormB d = true) (h2 : endFormB s2 = true) :
    dateAt (s1 ++ d ++ s2) = some (s1, s2) := by
  unfold dateAt
  rw [List.append_assoc]
  refine group1_run h1 ?_
  refine sep_run hd (endForm_ends h2).1 ?_
  exact group2_run h2 rfl

/-- The leftmost-search result on a well-formed range text is the
match at position zero. -/
theorem dateSearch_run {s1 d s2 : Frag} (h1 : startFormB s1 = true)
    (hd : dashFormB d = true) (h2 : endFormB s2 = true) :
    dateSearch (s1 ++ d ++ s2) = some (s1, s2) := by
  have hne : s1 ≠ [] := (startForm_ends h1).2.2.1
  rcases s1 with _ | ⟨u, s1'⟩
  · exact absurd rfl hne
  unfold dateSearch
  rw [show ((u :: s1') ++ d) ++ s2 = u :: ((s1' ++ d) ++ s2) from by simp]
  simp only [searchFrom]
  rw [show u :: ((s1' ++ d) ++ s2) = ((u :: s1') ++ d) ++ s2 from by simp]
  rw [dateAt_run h1 hd h2, orO_some]

/-- Without any middle dot in the text the duration regex finds
nothing. -/
theorem durationSearch_none :
    ∀ cs : List Char, (∀ c ∈ cs, c ≠ '·') → durationSearch cs = none
  | [], _ => rfl
  | c :: cs, h => by
    have ih := durationSearch_none cs (fun x hx => h x (List.mem_cons_of_mem c hx))
    have hc : ¬(c = '·') := h c (List.mem_cons_self c cs)
    show searchFrom durAt (c :: cs) = none
    simp only [searchFrom, durAt, if_neg hc, orO_none]
    exact ih

/-- C3: the worked example evaluates as specified, and in general any
text `<start><dash><end>` with `start ∈ {Month YYYY, YYYY}`,
`dash ∈ {-, –}` (optionally space-padded) and
`end ∈ {Month YYYY, YYYY, Present}` (months and `Present`
case-insensitive) is accepted with exactly those start/end captures
and no duration. -/
theorem C3_date_range_grammar :
    extract_date_range dateSampleW =
      (some (("Jan 2019").data), some (("Present").data), some (("3 yrs 2 mos").data)) ∧
    ∀ s1 d s2 : Frag, startFormB s1 = true → dashFormB d = true → endFormB s2 = true →
      extract_date_range (s1 ++ d ++ s2) = (some s1, some s2, none) := by
  constructor
  · decide
  · intro s1 d s2 h1 hd h2
    have hdot : ∀ c ∈ (s1 ++ d) ++ s2, c ≠ '·' := by
      intro c hc
      rcases List.mem_append.mp hc with hc' | hc2
      · rcases List.mem_append.mp hc' with hc1 | hcd
        · exact (startForm_ends h1).2.2.2 c hc1
        · exact dashForm_no_dot hd c hcd
      · exact (endForm_ends h2).2.2.2 c hc2
    unfold extract_date_range
    rw [dateSearch_run h1 hd h2, durationSearch_none _ hdot]
    simp [pyStrip_eq_self (startForm_ends h1).1 (startForm_ends h1).2.1,
      pyStrip_eq_self (endForm_ends h2).1 (endForm_ends h2).2.1]

/-- C3 witness: the general grammar theorem applied to
`"2015" ++ " – " ++ "Mar 2021"`. -/
theorem C3_witness :
    extract_date_range ((("2015").data ++ (" – ").data) ++ ("Mar 2021").data) =
      (some (("2015").data), some (("Mar 2021").data), none) :=
  C3_date_range_grammar.2 (("2015").data) ((" – ").data) (("Mar 2021").data)
    (by decide) (by decide) (by decide)

end Scrapper
